import Mathlib

/-!
Verification development for the Wordle leaderboard engine in `EtchoBot.py`.

The source program is a Discord bot whose core logic is:
  * `calculate_score` — maps a Wordle score token to points,
  * `process_wordle_message` — parses a result message with the regex
    `(\d|X)/6:\s*(.*?)(?=(\d|X)/6:|$)` (IGNORECASE, DOTALL), extracts user
    mentions `<@!?(\d+)>` from each captured segment, and folds the scores
    into a leaderboard mapping,
  * `load_leaderboard` / `save_leaderboard` — whole-snapshot persistence,
  * `display_wordle_leaderboard` — sorts and renders the leaderboard,
  * `backfill_wordle_leaderboard` — scans a history window and ingests
    eligible messages, saving once at the end.

The embedding below models message text as `List Char` (ASCII fragment of the
Python semantics: Python's `\d`, `\s`, `.lower()`, `.upper()` coincide with the
ASCII notions on all inputs used here).  The regex scans are modelled as
fuel-indexed structural recursions (fuel = length of the scanned text) so that
all definitions compute by kernel reduction.  Floats in the sort key are
modelled by exact rationals.
-/

namespace EtchoBot

/-! ### Text primitives -/

/-- Python `\s` (ASCII whitespace, the characters matched by `str.strip`). -/
def isWS (c : Char) : Bool :=
  c == ' ' || c == '\t' || c == '\n' || c == '\r' || c == '\x0b' || c == '\x0c'

/-- Python `str.strip()`: drop leading and trailing whitespace. -/
def pyStrip (s : List Char) : List Char :=
  ((s.dropWhile isWS).reverse.dropWhile isWS).reverse

/-- Python `content.replace('**', '')`: delete non-overlapping occurrences of
`**`, scanning left to right. -/
def removeStars : List Char → List Char
  | '*' :: '*' :: rest => removeStars rest
  | c :: rest => c :: removeStars rest
  | [] => []

/-- Python `str.lower()` (ASCII). -/
def pyLowerAll (s : List Char) : List Char := s.map Char.toLower

/-- Does `hay` start with `needle`? (helper for substring containment). -/
def listStartsWith : List Char → List Char → Bool
  | _, [] => true
  | [], _ :: _ => false
  | a :: xs, b :: ys => a == b && listStartsWith xs ys

/-- Python `needle in hay` substring containment. -/
def listContainsSub : List Char → List Char → Bool
  | hay, needle =>
    match hay with
    | [] => needle.isEmpty
    | _ :: t => listStartsWith hay needle || listContainsSub t needle

/-! ### The score-token scanner

Model of `re.findall(r'(\d|X)/6:\s*(.*?)(?=(\d|X)/6:|$)', s, IGNORECASE|DOTALL)`.

An occurrence of the score pattern is four characters `t '/' '6' ':'` with `t`
a digit or `X`/`x` (IGNORECASE).  Two occurrences can never overlap (the later
three characters of an occurrence cannot begin one), so `re.findall` returns
one match per occurrence: the lazy group `(.*?)` bounded by the lookahead
captures exactly the text from after the greedy `\s*` run up to the next
occurrence (or the end of the text), and the scan resumes on the unconsumed
lookahead position. -/

/-- The first alternation `(\d|X)` of the score regex, with IGNORECASE. -/
def isScoreTokenChar (c : Char) : Bool := c.isDigit || c == 'X' || c == 'x'

/-- Does an occurrence of `(\d|X)/6:` start at the head of `s`? -/
def startsWithScorePat (s : List Char) : Bool :=
  match s with
  | c :: d :: e :: f :: _ => isScoreTokenChar c && d == '/' && e == '6' && f == ':'
  | _ => false

/-- Number of occurrences of the score pattern in `s` (at any position). -/
def countScorePats : List Char → Nat
  | [] => 0
  | c :: rest => (if startsWithScorePat (c :: rest) then 1 else 0) + countScorePats rest

/-- The lazy capture `(.*?)(?=(\d|X)/6:|$)`: split `s` into the text before the
first occurrence of the score pattern and the remainder starting at that
occurrence (or `([], [])`-style split with everything in the first component
when there is none). -/
def takeSegment : List Char → List Char × List Char
  | [] => ([], [])
  | c :: rest =>
    if startsWithScorePat (c :: rest) then ([], c :: rest)
    else
      let p := takeSegment rest
      (c :: p.1, p.2)

/-- Fuel-indexed scan of `re.findall` for the score regex: at each position,
if an occurrence starts here, emit `(token, segment)` where the segment is the
lazily captured text after the greedy `\s*` run, and resume at the lookahead
position; otherwise advance one character. -/
def wordleFindallF : Nat → List Char → List (Char × List Char)
  | 0, _ => []
  | _ + 1, [] => []
  | fuel + 1, c :: rest =>
    if startsWithScorePat (c :: rest) then
      let p := takeSegment ((rest.drop 3).dropWhile isWS)
      (c, p.1) :: wordleFindallF fuel p.2
    else
      wordleFindallF fuel rest

/-- `re.findall` for the score regex (fuel instantiated with the text length,
which bounds the number of scanning steps). -/
def wordleFindall (s : List Char) : List (Char × List Char) :=
  wordleFindallF s.length s

/-! ### The mention scanner: model of `re.findall(r'<@!?(\d+)>', seg)`. -/

/-- Greedy `\d+`: split off the maximal leading digit run. -/
def takeDigits : List Char → List Char × List Char
  | [] => ([], [])
  | c :: rest =>
    if c.isDigit then
      let p := takeDigits rest
      (c :: p.1, p.2)
    else ([], c :: rest)

/-- The optional `!?` after `<@`. -/
def dropBang : List Char → List Char
  | '!' :: r => r
  | r => r

/-- Fuel-indexed scan for `<@!?(\d+)>`: on `<@`, optionally skip `!`, read the
maximal digit run, and require `>`; a failed attempt advances one character
(no shorter digit run can be followed by `>`, so the greedy run is the only
candidate and backtracking is fruitless, as in the Python engine). -/
def findMentionsF : Nat → List Char → List (List Char)
  | 0, _ => []
  | _ + 1, [] => []
  | fuel + 1, c :: rest =>
    if c == '<' then
      match rest with
      | '@' :: rest1 =>
        let p := takeDigits (dropBang rest1)
        match p.1, p.2 with
        | [], _ => findMentionsF fuel rest
        | ds, '>' :: rem => ds :: findMentionsF fuel rem
        | _, _ => findMentionsF fuel rest
      | _ => findMentionsF fuel rest
    else findMentionsF fuel rest

/-- `re.findall(r'<@!?(\d+)>', s)`: the captured digit strings, in order. -/
def findMentions (s : List Char) : List (List Char) :=
  findMentionsF s.length s

/-- The full parse of one (already cleaned) message body: one
`(score token, mention list)` pair per regex match, mirroring the per-match
`re.findall(r'<@!?(\d+)>', mention_segment)` call in the source loop.

One deviation of the model from CPython, checked by hand: the anchor `$` also
matches just before a terminal newline, so on a text ending in `'\n'` CPython
excludes that single newline from the final captured segment while this model
includes it.  The engine only parses `.strip()`-ed text, which never ends in a
newline, and the trailing newline contains no score pattern and no mention, so
no property stated below is affected. -/
def parseWordleContent (s : List Char) : List (Char × List (List Char)) :=
  (wordleFindall s).map (fun p => (p.1, findMentions p.2))

/-! ### Scoring function

`calculate_score(result_str)` from the source.  The parser only ever passes a
single captured character, so the model takes a `Char`.  `result_str.upper()
== 'X'` holds exactly when the character is `'X'` or `'x'`; otherwise Python
tries `int(result_str)`, which on a single character succeeds exactly on a
digit (value `c.toNat - 48`) and raises `ValueError` (score 0) otherwise. -/

/-- `calculate_score`: `X`/`x` → 0; digit `g` → `max(0, 7 - g)`; any other
character → 0 (the `except ValueError` branch). -/
def calculate_score (c : Char) : ℤ :=
  if c == 'X' || c == 'x' then 0
  else if c.isDigit then max 0 (7 - ((c.toNat - 48 : ℕ) : ℤ))
  else 0

/-! ### Leaderboard data model

The persisted leaderboard is a JSON object: user-id string → record.  Python
dicts preserve insertion order and have unique keys; the model is an
insertion-ordered association list. -/

/-- A raw user-id string (the digits captured from a mention). -/
abbrev UserId := List Char

/-- One leaderboard record: `username`, `total_score`, `games_played`. -/
structure PlayerRec where
  username : List Char
  total_score : ℤ
  games_played : ℤ
deriving DecidableEq, Repr

/-- The leaderboard snapshot: insertion-ordered map user-id → record. -/
abbrev Board := List (UserId × PlayerRec)

/-- Python `user_id in leaderboard_data` (dict key membership). -/
def boardHas (b : Board) (u : UserId) : Bool := b.any (fun p => p.1 == u)

/-- Update a key's record in place (dict item assignment; keys are unique in
any board built by the engine, and entries with other keys are untouched). -/
def boardUpdate (b : Board) (u : UserId) (f : PlayerRec → PlayerRec) : Board :=
  b.map (fun p => if p.1 == u then (p.1, f p.2) else p)

/-- Dict lookup of the `total_score` field, defaulting to 0 when absent. -/
def boardScore (b : Board) (u : UserId) : ℤ :=
  ((b.find? (fun p => p.1 == u)).map (fun p => p.2.total_score)).getD 0

/-- Dict lookup of the `games_played` field, defaulting to 0 when absent. -/
def boardGames (b : Board) (u : UserId) : ℤ :=
  ((b.find? (fun p => p.1 == u)).map (fun p => p.2.games_played)).getD 0

/-! ### Aggregation engine: `process_wordle_message`

The Discord client, `fetch_user` and its two `except` fallbacks are modelled
by an arbitrary total resolver `UserId → List Char`: every call produces some
display name.  The engine returns the updated board together with the exact
`scores_logged` counter; the Python function returns `scores_logged > 0`. -/

/-- The configured source-bot identity (`WORDLE_BOT_ID` in the source). -/
def WORDLE_BOT_ID : ℤ := 1211781489931452447

/-- The per-mention body of the inner `for user_id in user_mentions` loop:
create the record if absent, then add the points, increment the games counter,
overwrite the username, and bump `scores_logged`. -/
def applyMention (resolve : UserId → List Char) (points : ℤ)
    (acc : Board × ℕ) (u : UserId) : Board × ℕ :=
  let name := resolve u
  let b1 := if boardHas acc.1 u then acc.1 else acc.1 ++ [(u, ⟨name, 0, 0⟩)]
  (boardUpdate b1 u (fun r => ⟨name, r.total_score + points, r.games_played + 1⟩),
   acc.2 + 1)

/-- The per-match body of the outer `for match in score_matches` loop. -/
def applyMatch (resolve : UserId → List Char) (acc : Board × ℕ)
    (m : Char × List UserId) : Board × ℕ :=
  m.2.foldl (applyMention resolve (calculate_score m.1)) acc

/-- `process_wordle_message(message, leaderboard_data, client)`: author check,
empty-content check, markdown cleaning, regex parse, and the nested update
loops.  Returns the updated board and `scores_logged`. -/
def process_wordle_message (authorId : ℤ) (content : List Char)
    (resolve : UserId → List Char) (b : Board) : Board × ℕ :=
  if authorId ≠ WORDLE_BOT_ID then (b, 0)
  else if content.isEmpty then (b, 0)
  else
    let cleaned := pyStrip (removeStars content)
    let results := parseWordleContent cleaned
    if results.isEmpty then (b, 0)
    else results.foldl (applyMatch resolve) (b, 0)

/-! ### Leaderboard store: `load_leaderboard`

`load_leaderboard` does file I/O; its observable behaviour depends only on the
state of the persisted resource, modelled by three cases: the file is absent
(`os.path.exists` is false), it exists but `json.load` raises
`JSONDecodeError`, or it decodes to a snapshot. -/

/-- State of the persisted resource. -/
inductive StoredState where
  | absent
  | corrupt
  | valid (b : Board)

/-- `load_leaderboard()`: absent and corrupt states are both swallowed into
the empty mapping; the function is total (never propagates those failures). -/
def load_leaderboard : StoredState → Board
  | .absent => []
  | .corrupt => []
  | .valid b => b

/-! ### Ranking and presentation: `display_wordle_leaderboard`

Python `sorted(items, key=lambda item: (total_score, 7.0 - total_score /
games_played if games_played > 0 else 7.0), reverse=True)` is the stable sort
by the key tuple with every comparison reversed (descending); equal-key items
keep their original dict insertion order.  Any stable sort under the same
comparator produces the same list, so it is modelled by a stable insertion
sort.  The float key is modelled by an exact rational (all comparisons in the
concrete inputs below are exact in both systems). -/

/-- The sort key of one leaderboard item. -/
def pyKey (p : UserId × PlayerRec) : ℤ × ℚ :=
  (p.2.total_score,
   if 0 < p.2.games_played then
     (7 : ℚ) - (p.2.total_score : ℚ) / (p.2.games_played : ℚ)
   else 7)

/-- Reversed (descending) lexicographic comparison of sort keys: does `a` sort
no later than `b` under `reverse=True`? -/
def keyGE (a b : ℤ × ℚ) : Bool := b.1 < a.1 || (b.1 = a.1 && b.2 ≤ a.2)

/-- Stable insertion into a descending-sorted board. -/
def insertByDesc (x : UserId × PlayerRec) : Board → Board
  | [] => [x]
  | y :: ys => if keyGE (pyKey x) (pyKey y) then x :: y :: ys else y :: insertByDesc x ys

/-- `sorted(leaderboard_data.items(), key=..., reverse=True)`. -/
def sortedBoard (b : Board) : Board := b.foldr insertByDesc []

/-- The rendered average-guess cell: `"X/6"`, `"N/A/6"`, or a numeric
`avg/6`. -/
inductive AvgCell where
  | xOver6
  | naOver6
  | qOver6 (q : ℚ)
deriving DecidableEq, Repr

/-- One rendered leaderboard line (rank position, username, score, games, and
the average-guess cell). -/
structure RankEntry where
  rank : ℕ
  username : List Char
  total_score : ℤ
  games_played : ℤ
  avg : AvgCell
deriving DecidableEq, Repr

/-- The body of the rendering loop for item `p` at 0-based index `i`:
`avg_guess_str` is numeric iff `games > 0` (else `"N/A"`), and the display is
`"X/6"` exactly when `score == 0 and games > 0`. -/
def renderEntry (i : ℕ) (p : UserId × PlayerRec) : RankEntry :=
  let score := p.2.total_score
  let games := p.2.games_played
  ⟨i + 1, p.2.username, score, games,
   if score = 0 ∧ 0 < games then .xOver6
   else if 0 < games then .qOver6 ((7 : ℚ) - (score : ℚ) / (games : ℚ))
   else .naOver6⟩

/-- `display_wordle_leaderboard`: `none` models the early "leaderboard is
empty" message; otherwise one rendered line per item of the sorted board. -/
def display_wordle_leaderboard (b : Board) : Option (List RankEntry) :=
  if b.isEmpty then none
  else some ((sortedBoard b).enum.map (fun ip => renderEntry ip.1 ip.2))

/-! ### Backfill: `backfill_wordle_leaderboard`

The history window (bounded by `limit` at the transport) is a list of
messages.  The scan skips the command message itself, checks the keyword
phrase on the lowercased stripped content and the author identity, runs the
engine on eligible messages against the shared snapshot, counts messages whose
ingestion logged at least one score, and saves once at the end iff that count
is positive (the returned third component counts persistence writes). -/

/-- A transport message: identifier, author identity, raw body. -/
structure Msg where
  id : ℤ
  authorId : ℤ
  content : List Char
deriving DecidableEq, Repr

/-- `KEYWORD_PHRASE = "yesterday's results"`. -/
def KEYWORD_PHRASE : List Char := ("yesterday's results").toList

/-- The `is_wordle_result` check of the backfill loop. -/
def isEligible (m : Msg) : Bool :=
  listContainsSub (pyLowerAll (pyStrip m.content)) (pyLowerAll KEYWORD_PHRASE)
    && m.authorId == WORDLE_BOT_ID

/-- One iteration of the backfill history loop over accumulator
`(snapshot, logged_count)`. -/
def backfillStep (resolve : UserId → List Char) (ctxId : ℤ)
    (acc : Board × ℕ) (m : Msg) : Board × ℕ :=
  if m.id = ctxId then acc
  else if isEligible m then
    let r := process_wordle_message m.authorId m.content resolve acc.1
    (r.1, if 0 < r.2 then acc.2 + 1 else acc.2)
  else acc

/-- `backfill_wordle_leaderboard`: returns the final snapshot, the number of
messages logged, and the number of `save_leaderboard` calls performed. -/
def backfill_wordle_leaderboard (resolve : UserId → List Char) (ctxId : ℤ)
    (history : List Msg) (b0 : Board) : Board × ℕ × ℕ :=
  let r := history.foldl (backfillStep resolve ctxId) (b0, 0)
  (r.1, r.2, if 0 < r.2 then 1 else 0)

/-! ### Invariant and message-delta notions used by the claims. -/

/-- The aggregate invariant: every record satisfies
`0 ≤ total_score ≤ 7 * games_played`. -/
def boardInv (b : Board) : Prop :=
  ∀ p ∈ b, 0 ≤ p.2.total_score ∧ p.2.total_score ≤ 7 * p.2.games_played

/-- Total points one parsed message contributes to user `u` (independent of
the starting snapshot). -/
def msgScoreDelta (results : List (Char × List UserId)) (u : UserId) : ℤ :=
  (results.map (fun m => (m.2.count u : ℤ) * calculate_score m.1)).sum

/-- Total games one parsed message contributes to user `u`. -/
def msgGamesDelta (results : List (Char × List UserId)) (u : UserId) : ℤ :=
  (results.map (fun m => (m.2.count u : ℤ))).sum

/-- The score delta of one full `process_wordle_message` call for user `u`. -/
def processScoreDelta (authorId : ℤ) (content : List Char) (u : UserId) : ℤ :=
  if authorId = WORDLE_BOT_ID ∧ content.isEmpty = false then
    msgScoreDelta (parseWordleContent (pyStrip (removeStars content))) u
  else 0

/-- The games delta of one full `process_wordle_message` call for user `u`. -/
def processGamesDelta (authorId : ℤ) (content : List Char) (u : UserId) : ℤ :=
  if authorId = WORDLE_BOT_ID ∧ content.isEmpty = false then
    msgGamesDelta (parseWordleContent (pyStrip (removeStars content))) u
  else 0

/-- Reassemble a parse: each entry `((token, segment), (ws, gap))` contributes
the four matched characters, the whitespace eaten by `\s*`, the captured
segment, and a scanner gap (empty in any actual scan, but existentially
quantified in the decomposition theorem). -/
def glueEntries : List ((Char × List Char) × (List Char × List Char)) → List Char
  | [] => []
  | e :: t =>
    e.1.1 :: '/' :: '6' :: ':' :: ((e.2.1 ++ e.1.2 ++ e.2.2) ++ glueEntries t)

/-! ## Lemmas about the score-token scanner -/

lemma length_dropWhile_le (p : Char → Bool) (l : List Char) :
    (l.dropWhile p).length ≤ l.length := by
  induction l with
  | nil => simp
  | cons c t ih =>
    rw [List.dropWhile_cons]
    split
    · exact Nat.le_succ_of_le ih
    · simp

lemma all_takeWhile (p : Char → Bool) (l : List Char) :
    (l.takeWhile p).all p = true := by
  induction l with
  | nil => simp
  | cons c t ih =>
    rw [List.takeWhile_cons]
    split
    · simp [*]
    · simp

/-- A pattern occurrence at the head survives appending text on the right. -/
lemma pat_append {l : List Char} (l2 : List Char) (h : startsWithScorePat l = true) :
    startsWithScorePat (l ++ l2) = true := by
  match l with
  | c :: d :: e :: f :: t => simpa [startsWithScorePat] using h
  | [] => simp [startsWithScorePat] at h
  | [_] => simp [startsWithScorePat] at h
  | [_, _] => simp [startsWithScorePat] at h
  | [_, _, _] => simp [startsWithScorePat] at h

/-- No occurrence starts at a character that is not a score token. -/
lemma pat_not_head {c : Char} (t : List Char) (hc : isScoreTokenChar c = false) :
    startsWithScorePat (c :: t) = false := by
  match t with
  | d :: e :: f :: t' => simp [startsWithScorePat, hc]
  | [] => rfl
  | [_] => rfl
  | [_, _] => rfl

/-- No occurrence starts where the second character is not `/`. -/
lemma pat_second {c d : Char} (t : List Char) (hd : (d == '/') = false) :
    startsWithScorePat (c :: d :: t) = false := by
  match t with
  | e :: f :: t' => simp [startsWithScorePat, hd]
  | [] => rfl
  | [_] => rfl

/-- Shape of a list with an occurrence at its head. -/
lemma pat_shape {c : Char} {rest : List Char}
    (h : startsWithScorePat (c :: rest) = true) :
    isScoreTokenChar c = true ∧ ∃ t, rest = '/' :: '6' :: ':' :: t := by
  match rest with
  | d :: e :: f :: t =>
    simp only [startsWithScorePat, Bool.and_eq_true, beq_iff_eq] at h
    obtain ⟨⟨⟨hc, hd⟩, he⟩, hf⟩ := h
    subst hd; subst he; subst hf
    exact ⟨hc, t, rfl⟩
  | [] => simp [startsWithScorePat] at h
  | [_] => simp [startsWithScorePat] at h
  | [_, _] => simp [startsWithScorePat] at h

/-- Whitespace characters are not score tokens. -/
lemma ws_not_token {c : Char} (h : isWS c = true) : isScoreTokenChar c = false := by
  simp only [isWS, Bool.or_eq_true, beq_iff_eq] at h
  rcases h with ((((h | h) | h) | h) | h) | h <;> subst h <;> decide

/-- The three characters after a token cannot start an occurrence. -/
lemma count_slash (r : List Char) :
    countScorePats ('/' :: '6' :: ':' :: r) = countScorePats r := by
  have h1 : startsWithScorePat ('/' :: '6' :: ':' :: r) = false :=
    pat_not_head _ (by decide)
  have h2 : startsWithScorePat ('6' :: ':' :: r) = false :=
    pat_second _ (by decide)
  have h3 : startsWithScorePat (':' :: r) = false :=
    pat_not_head _ (by decide)
  simp [countScorePats, h1, h2, h3]

/-- Dropping leading whitespace does not change the number of occurrences. -/
lemma count_dropWhile_ws (l : List Char) :
    countScorePats (l.dropWhile isWS) = countScorePats l := by
  induction l with
  | nil => rfl
  | cons c t ih =>
    rw [List.dropWhile_cons]
    by_cases hc : isWS c = true
    · rw [if_pos hc, ih]
      have := pat_not_head t (ws_not_token hc)
      simp [countScorePats, this]
    · rw [if_neg hc]

lemma takeSegment_append : ∀ s : List Char, (takeSegment s).1 ++ (takeSegment s).2 = s := by
  intro s
  induction s with
  | nil => rfl
  | cons c t ih =>
    by_cases h : startsWithScorePat (c :: t) = true
    · simp [takeSegment, h]
    · simp only [takeSegment, Bool.not_eq_true] at h ⊢
      simp [h, ih]

lemma takeSegment_snd_length : ∀ s : List Char, (takeSegment s).2.length ≤ s.length := by
  intro s
  induction s with
  | nil => simp [takeSegment]
  | cons c t ih =>
    by_cases h : startsWithScorePat (c :: t) = true
    · simp [takeSegment, h]
    · have h' : startsWithScorePat (c :: t) = false := by simpa using h
      have hsnd : (takeSegment (c :: t)).2 = (takeSegment t).2 := by
        simp [takeSegment, h']
      rw [hsnd]
      exact Nat.le_succ_of_le ih

/-- The captured segment contains no occurrence of the score pattern: the
lazy capture stops at the first one. -/
lemma takeSegment_fst_nopat : ∀ s : List Char, countScorePats (takeSegment s).1 = 0 := by
  intro s
  induction s with
  | nil => rfl
  | cons c t ih =>
    by_cases h : startsWithScorePat (c :: t) = true
    · simp [takeSegment, h, countScorePats]
    · have h' : startsWithScorePat (c :: t) = false := by
        simpa using h
      have hfst : (takeSegment (c :: t)).1 = c :: (takeSegment t).1 := by
        simp [takeSegment, h']
      have hps : startsWithScorePat (c :: (takeSegment t).1) = false := by
        by_contra hcon
        have htrue : startsWithScorePat (c :: (takeSegment t).1) = true := by
          simpa using hcon
        have := pat_append ((takeSegment t).2) htrue
        rw [List.cons_append, takeSegment_append] at this
        rw [h'] at this
        exact Bool.false_ne_true this
      rw [hfst]
      simp [countScorePats, hps, ih]

/-- The remainder after the captured segment holds all the occurrences. -/
lemma takeSegment_snd_count : ∀ s : List Char,
    countScorePats (takeSegment s).2 = countScorePats s := by
  intro s
  induction s with
  | nil => rfl
  | cons c t ih =>
    by_cases h : startsWithScorePat (c :: t) = true
    · simp [takeSegment, h]
    · have h' : startsWithScorePat (c :: t) = false := by simpa using h
      have hsnd : (takeSegment (c :: t)).2 = (takeSegment t).2 := by
        simp [takeSegment, h']
      rw [hsnd, ih]
      simp [countScorePats, h']

/-- The scan result does not depend on the fuel, as long as the fuel bounds
the length of the scanned text. -/
lemma wordleFindallF_stable : ∀ (f1 : ℕ) (s : List Char) (f2 : ℕ),
    s.length ≤ f1 → s.length ≤ f2 → wordleFindallF f1 s = wordleFindallF f2 s := by
  intro f1
  induction f1 with
  | zero =>
    intro s f2 h1 _
    have hs : s = [] := List.eq_nil_of_length_eq_zero (Nat.le_zero.mp h1)
    subst hs
    cases f2 <;> rfl
  | succ f ih =>
    intro s f2 h1 h2
    cases s with
    | nil => cases f2 <;> rfl
    | cons c rest =>
      cases f2 with
      | zero => simp at h2
      | succ g =>
        simp only [wordleFindallF]
        by_cases hp : startsWithScorePat (c :: rest) = true
        · simp only [hp, if_true]
          have hlen : (takeSegment ((rest.drop 3).dropWhile isWS)).2.length ≤ rest.length := by
            calc (takeSegment ((rest.drop 3).dropWhile isWS)).2.length
                ≤ ((rest.drop 3).dropWhile isWS).length := takeSegment_snd_length _
              _ ≤ (rest.drop 3).length := length_dropWhile_le _ _
              _ ≤ rest.length := by rw [List.length_drop]; omega
          have hr : rest.length ≤ f := by simpa using Nat.succ_le_succ_iff.mp h1
          have hg : rest.length ≤ g := by simpa using Nat.succ_le_succ_iff.mp h2
          rw [ih _ g (le_trans hlen hr) (le_trans hlen hg)]
        · have hp' : startsWithScorePat (c :: rest) = false := by simpa using hp
          simp only [hp', if_false]
          have hr : rest.length ≤ f := by simpa using Nat.succ_le_succ_iff.mp h1
          have hg : rest.length ≤ g := by simpa using Nat.succ_le_succ_iff.mp h2
          exact ih _ g hr hg

/-- Unfolding equation of the scan when no occurrence starts at the head:
advance one character. -/
lemma wordleFindall_nopat {c : Char} {rest : List Char}
    (h : startsWithScorePat (c :: rest) = false) :
    wordleFindall (c :: rest) = wordleFindall rest := by
  unfold wordleFindall
  simp only [List.length_cons]
  simp [wordleFindallF, h]

/-- Unfolding equation of the scan at an occurrence: emit the token and the
lazily captured segment, and resume at the lookahead position. -/
lemma wordleFindall_pat {c : Char} {t : List Char} (hc : isScoreTokenChar c = true) :
    wordleFindall (c :: '/' :: '6' :: ':' :: t) =
      (c, (takeSegment (t.dropWhile isWS)).1) ::
        wordleFindall ((takeSegment (t.dropWhile isWS)).2) := by
  have hp : startsWithScorePat (c :: '/' :: '6' :: ':' :: t) = true := by
    simp [startsWithScorePat, hc]
  unfold wordleFindall
  simp only [List.length_cons]
  simp only [wordleFindallF, hp, if_true, List.drop_succ_cons, List.drop_zero]
  congr 1
  apply wordleFindallF_stable
  · calc (takeSegment (t.dropWhile isWS)).2.length
        ≤ (t.dropWhile isWS).length := takeSegment_snd_length _
      _ ≤ t.length := length_dropWhile_le _ _
      _ ≤ t.length + 1 + 1 + 1 := by omega
  · exact le_rfl

/-- The scan returns exactly one match per occurrence of the score pattern. -/
lemma wordleFindall_length : ∀ (n : ℕ) (s : List Char), s.length ≤ n →
    (wordleFindall s).length = countScorePats s := by
  intro n
  induction n with
  | zero =>
    intro s h
    have hs : s = [] := List.eq_nil_of_length_eq_zero (Nat.le_zero.mp h)
    subst hs; rfl
  | succ n ih =>
    intro s h
    cases s with
    | nil => rfl
    | cons c rest =>
      by_cases hp : startsWithScorePat (c :: rest) = true
      · obtain ⟨hc, t, ht⟩ := pat_shape hp
        subst ht
        rw [wordleFindall_pat hc]
        have hrem : (takeSegment (t.dropWhile isWS)).2.length ≤ n := by
          have h1 : (takeSegment (t.dropWhile isWS)).2.length ≤ t.length :=
            le_trans (takeSegment_snd_length _) (length_dropWhile_le _ _)
          have h2 : t.length + 4 ≤ n + 1 := by simpa using h
          omega
        rw [List.length_cons, ih _ hrem]
        rw [takeSegment_snd_count, count_dropWhile_ws]
        have : countScorePats (c :: '/' :: '6' :: ':' :: t) =
            1 + countScorePats ('/' :: '6' :: ':' :: t) := by
          simp [countScorePats, hp]
        rw [this, count_slash]
        omega
      · have hp' : startsWithScorePat (c :: rest) = false := by simpa using hp
        rw [wordleFindall_nopat hp']
        have hrest : rest.length ≤ n := by
          simpa using Nat.succ_le_succ_iff.mp h
        rw [ih _ hrest]
        simp [countScorePats, hp']

/-- Every match of the scan carries a token character (a digit or `X`/`x`)
and a captured segment free of score-pattern occurrences. -/
lemma wordleFindall_entries : ∀ (n : ℕ) (s : List Char), s.length ≤ n →
    ((wordleFindall s).all fun p =>
      isScoreTokenChar p.1 && (countScorePats p.2 == 0)) = true := by
  intro n
  induction n with
  | zero =>
    intro s h
    have hs : s = [] := List.eq_nil_of_length_eq_zero (Nat.le_zero.mp h)
    subst hs; rfl
  | succ n ih =>
    intro s h
    cases s with
    | nil => rfl
    | cons c rest =>
      by_cases hp : startsWithScorePat (c :: rest) = true
      · obtain ⟨hc, t, ht⟩ := pat_shape hp
        subst ht
        rw [wordleFindall_pat hc]
        have hrem : (takeSegment (t.dropWhile isWS)).2.length ≤ n := by
          have h1 : (takeSegment (t.dropWhile isWS)).2.length ≤ t.length :=
            le_trans (takeSegment_snd_length _) (length_dropWhile_le _ _)
          have h2 : t.length + 4 ≤ n + 1 := by simpa using h
          omega
        rw [List.all_cons]
        rw [ih _ hrem]
        simp [hc, takeSegment_fst_nopat]
      · have hp' : startsWithScorePat (c :: rest) = false := by simpa using hp
        rw [wordleFindall_nopat hp']
        have hrest : rest.length ≤ n := by
          simpa using Nat.succ_le_succ_iff.mp h
        exact ih _ hrest

/-- Decomposition of the scanned text along its parse: the text is a
pattern-free prelude followed, for each match in order, by the four matched
characters, a whitespace run, the captured segment, and a pattern-free gap.
Together with `wordleFindall_length` and `wordleFindall_entries` this pins
each captured segment between its own score token and the next one: segments
appear in textual order and every occurrence of the score pattern in the text
is the token of exactly one match. -/
lemma wordleFindall_decomp : ∀ (n : ℕ) (s : List Char), s.length ≤ n →
    ∃ pre extras,
      extras.length = (wordleFindall s).length ∧
      countScorePats pre = 0 ∧
      (extras.all fun x => x.1.all isWS && (countScorePats x.2 == 0)) = true ∧
      s = pre ++ glueEntries ((wordleFindall s).zip extras) := by
  intro n
  induction n with
  | zero =>
    intro s h
    have hs : s = [] := List.eq_nil_of_length_eq_zero (Nat.le_zero.mp h)
    subst hs
    exact ⟨[], [], rfl, rfl, rfl, rfl⟩
  | succ n ih =>
    intro s h
    cases s with
    | nil => exact ⟨[], [], rfl, rfl, rfl, rfl⟩
    | cons c rest =>
      by_cases hp : startsWithScorePat (c :: rest) = true
      · obtain ⟨hc, t, ht⟩ := pat_shape hp
        subst ht
        have hrem : (takeSegment (t.dropWhile isWS)).2.length ≤ n := by
          have h1 : (takeSegment (t.dropWhile isWS)).2.length ≤ t.length :=
            le_trans (takeSegment_snd_length _) (length_dropWhile_le _ _)
          have h2 : t.length + 4 ≤ n + 1 := by simpa using h
          omega
        obtain ⟨pre', extras', hlen', hpre', hall', heq'⟩ := ih _ hrem
        refine ⟨[], (t.takeWhile isWS, pre') :: extras', ?_, rfl, ?_, ?_⟩
        · rw [wordleFindall_pat hc]
          simp [hlen']
        · rw [List.all_cons]
          have h1 : (t.takeWhile isWS).all isWS = true := all_takeWhile _ _
          simp [h1, hpre', hall']
        · rw [wordleFindall_pat hc, List.zip_cons_cons, glueEntries]
          simp only [List.nil_append]
          have hsplit : t.takeWhile isWS ++
              ((takeSegment (t.dropWhile isWS)).1 ++ (takeSegment (t.dropWhile isWS)).2) = t := by
            rw [takeSegment_append, List.takeWhile_append_dropWhile]
          rw [heq'] at hsplit
          conv_lhs => rw [← hsplit]
          simp [List.append_assoc]
      · have hp' : startsWithScorePat (c :: rest) = false := by simpa using hp
        have hrest : rest.length ≤ n := by
          simpa using Nat.succ_le_succ_iff.mp h
        obtain ⟨pre', extras', hlen', hpre', hall', heq'⟩ := ih _ hrest
        refine ⟨c :: pre', extras', ?_, ?_, hall', ?_⟩
        · rw [wordleFindall_nopat hp', hlen']
        · have hps : startsWithScorePat (c :: pre') = false := by
            by_contra hcon
            have htrue : startsWithScorePat (c :: pre') = true := by simpa using hcon
            have h2 := pat_append (glueEntries ((wordleFindall rest).zip extras')) htrue
            rw [List.cons_append, ← heq'] at h2
            rw [hp'] at h2
            exact Bool.false_ne_true h2
          simp [countScorePats, hps, hpre']
        · rw [wordleFindall_nopat hp', List.cons_append, ← heq']

/-! ## Lemmas about the scoring function -/

lemma digit_not_xmark {c : Char} (h : c.isDigit = true) :
    (c == 'X' || c == 'x') = false := by
  have hX : (c == 'X') = false := by
    rw [beq_eq_false_iff_ne]
    rintro rfl
    exact absurd h (by decide)
  have hx : (c == 'x') = false := by
    rw [beq_eq_false_iff_ne]
    rintro rfl
    exact absurd h (by decide)
  simp [hX, hx]

lemma calculate_score_digit {c : Char} (h : c.isDigit = true) :
    calculate_score c = max 0 (7 - ((c.toNat - 48 : ℕ) : ℤ)) := by
  unfold calculate_score
  rw [digit_not_xmark h]
  simp [h]

lemma calculate_score_nonneg (c : Char) : 0 ≤ calculate_score c := by
  unfold calculate_score
  split_ifs
  · exact le_rfl
  · exact le_max_left 0 _
  · exact le_rfl

lemma calculate_score_le_seven (c : Char) : calculate_score c ≤ 7 := by
  unfold calculate_score
  split_ifs
  · norm_num
  · refine max_le (by norm_num) ?_
    have : (0 : ℤ) ≤ ((c.toNat - 48 : ℕ) : ℤ) := Int.natCast_nonneg _
    omega
  · norm_num

/-! ## Lemmas about board lookups and the aggregation engine -/

lemma boardUpdate_key (q : UserId × PlayerRec) (u : UserId) (f : PlayerRec → PlayerRec) :
    (if q.1 == u then (q.1, f q.2) else q).1 = q.1 := by
  split <;> rfl

lemma find?_boardUpdate (b : Board) (u v : UserId) (f : PlayerRec → PlayerRec) :
    (boardUpdate b u f).find? (fun p => p.1 == v)
      = (b.find? (fun p => p.1 == v)).map
          (fun q => if q.1 == u then (q.1, f q.2) else q) := by
  induction b with
  | nil => rfl
  | cons q t ih =>
    show ((if q.1 == u then (q.1, f q.2) else q) :: boardUpdate t u f).find? _ = _
    have hkey : ((if q.1 == u then (q.1, f q.2) else q).1 == v) = (q.1 == v) := by
      rw [boardUpdate_key]
    cases hqv : (q.1 == v) with
    | true => simp only [List.find?_cons, hkey, hqv]; rfl
    | false => simp only [List.find?_cons, hkey, hqv]; exact ih

lemma boardHas_false_find? {b : Board} {u : UserId} (h : boardHas b u = false) :
    b.find? (fun p => p.1 == u) = none := by
  induction b with
  | nil => rfl
  | cons q t ih =>
    simp only [boardHas, List.any_cons, Bool.or_eq_false_iff] at h
    obtain ⟨h1, h2⟩ := h
    simp only [List.find?_cons, h1]
    exact ih h2

lemma boardHas_true_find? {b : Board} {u : UserId} (h : boardHas b u = true) :
    ∃ r, b.find? (fun p => p.1 == u) = some (u, r) := by
  induction b with
  | nil => simp [boardHas] at h
  | cons q t ih =>
    cases hq : (q.1 == u) with
    | true =>
      have hq' : q.1 = u := by simpa using hq
      refine ⟨q.2, ?_⟩
      simp only [List.find?_cons, hq]
      cases q with
      | mk q1 q2 => simp_all
    | false =>
      simp only [boardHas, List.any_cons, hq, Bool.false_or] at h
      obtain ⟨r, hr⟩ := ih h
      exact ⟨r, by simp only [List.find?_cons, hq]; exact hr⟩

lemma find?_append_single (b : Board) (x : UserId × PlayerRec) (v : UserId) :
    (b ++ [x]).find? (fun p => p.1 == v) =
      match b.find? (fun p => p.1 == v) with
      | some q => some q
      | none => if (x.1 == v) = true then some x else none := by
  induction b with
  | nil =>
    cases hx : (x.1 == v) <;> simp [List.find?, hx]
  | cons q t ih =>
    cases hq : (q.1 == v) with
    | true => simp only [List.cons_append, List.find?_cons, hq]
    | false => simp only [List.cons_append, List.find?_cons, hq]; exact ih

/-- Effect of one inner-loop iteration on the lookup of any user: the
mentioned user's record gets the points, the game, and the fresh name; every
other user's lookup is untouched. -/
lemma applyMention_find? (resolve : UserId → List Char) (pts : ℤ) (acc : Board × ℕ)
    (u' u : UserId) :
    (applyMention resolve pts acc u').1.find? (fun p => p.1 == u)
      = if u' = u then
          some (u, ⟨resolve u', boardScore acc.1 u + pts, boardGames acc.1 u + 1⟩)
        else acc.1.find? (fun p => p.1 == u) := by
  have hshow : (applyMention resolve pts acc u').1
      = boardUpdate
          (if boardHas acc.1 u' then acc.1 else acc.1 ++ [(u', ⟨resolve u', 0, 0⟩)])
          u' (fun r => ⟨resolve u', r.total_score + pts, r.games_played + 1⟩) := rfl
  rw [hshow, find?_boardUpdate]
  by_cases hhas : boardHas acc.1 u' = true
  · rw [if_pos hhas]
    by_cases huu : u' = u
    · subst huu
      obtain ⟨r, hr⟩ := boardHas_true_find? hhas
      rw [hr, if_pos rfl]
      simp [boardScore, boardGames, hr]
    · rw [if_neg huu]
      rcases hfind : acc.1.find? (fun p => p.1 == u) with _ | q
      · rw [hfind]; rfl
      · have hq : (fun p : UserId × PlayerRec => p.1 == u) q = true :=
          @List.find?_some _ (fun p : UserId × PlayerRec => p.1 == u) q acc.1 hfind
        have hq' : q.1 = u := by simpa using hq
        have hne : ¬ q.1 = u' := by
          rw [hq']
          exact fun hcon => huu hcon.symm
        rw [hfind]
        simp [hne]
  · have hhasf : boardHas acc.1 u' = false := by simpa using hhas
    rw [if_neg hhas, find?_append_single]
    by_cases huu : u' = u
    · subst huu
      rw [boardHas_false_find? hhasf, if_pos rfl]
      simp [boardScore, boardGames, boardHas_false_find? hhasf]
    · rw [if_neg huu]
      rcases hfind : acc.1.find? (fun p => p.1 == u) with _ | q
      · rw [hfind]
        simp [huu]
      · have hq : (fun p : UserId × PlayerRec => p.1 == u) q = true :=
          @List.find?_some _ (fun p : UserId × PlayerRec => p.1 == u) q acc.1 hfind
        have hq' : q.1 = u := by simpa using hq
        have hne : ¬ q.1 = u' := by
          rw [hq']
          exact fun hcon => huu hcon.symm
        rw [hfind]
        simp [hne]

lemma applyMention_score_games (resolve : UserId → List Char) (pts : ℤ)
    (acc : Board × ℕ) (u' u : UserId) :
    boardScore ((applyMention resolve pts acc u').1) u
        = boardScore acc.1 u + (if u' = u then pts else 0) ∧
    boardGames ((applyMention resolve pts acc u').1) u
        = boardGames acc.1 u + (if u' = u then 1 else 0) := by
  unfold boardScore boardGames
  rw [applyMention_find?]
  by_cases huu : u' = u <;> simp [huu, boardScore, boardGames]

/-- Effect of the whole inner loop of one match on any user's aggregates:
each mention of `u` contributes `pts` points and one game. -/
lemma foldl_applyMention (resolve : UserId → List Char) (pts : ℤ) :
    ∀ (ms : List UserId) (acc : Board × ℕ) (u : UserId),
    boardScore ((ms.foldl (applyMention resolve pts) acc).1) u
        = boardScore acc.1 u + (ms.count u : ℤ) * pts ∧
    boardGames ((ms.foldl (applyMention resolve pts) acc).1) u
        = boardGames acc.1 u + (ms.count u : ℤ) := by
  intro ms
  induction ms with
  | nil => intro acc u; simp
  | cons m t ih =>
    intro acc u
    rw [List.foldl_cons]
    obtain ⟨hs, hg⟩ := ih (applyMention resolve pts acc m) u
    obtain ⟨hs', hg'⟩ := applyMention_score_games resolve pts acc m u
    have hcount : ((m :: t).count u : ℤ) = (t.count u : ℤ) + (if m = u then 1 else 0) := by
      rw [List.count_cons]
      by_cases hmu : m = u
      · have hb : (m == u) = true := by simpa using hmu
        simp [hmu, hb]
      · have hb : (m == u) = false := by rw [beq_eq_false_iff_ne]; exact hmu
        simp [hmu, hb]
    constructor
    · rw [hs, hs', hcount]
      by_cases hmu : m = u
      · simp [hmu]; ring
      · simp [hmu]
    · rw [hg, hg', hcount]
      by_cases hmu : m = u
      · simp [hmu]; ring
      · simp [hmu]

/-- Effect of the outer loop over all parsed matches on any user's
aggregates. -/
lemma foldl_applyMatch (resolve : UserId → List Char) :
    ∀ (results : List (Char × List UserId)) (acc : Board × ℕ) (u : UserId),
    boardScore ((results.foldl (applyMatch resolve) acc).1) u
        = boardScore acc.1 u + msgScoreDelta results u ∧
    boardGames ((results.foldl (applyMatch resolve) acc).1) u
        = boardGames acc.1 u + msgGamesDelta results u := by
  intro results
  induction results with
  | nil => intro acc u; simp [msgScoreDelta, msgGamesDelta]
  | cons m t ih =>
    intro acc u
    rw [List.foldl_cons]
    obtain ⟨hs, hg⟩ := ih (applyMatch resolve acc m) u
    have hs' : boardScore ((applyMatch resolve acc m).1) u
        = boardScore acc.1 u + (m.2.count u : ℤ) * calculate_score m.1 :=
      (foldl_applyMention resolve (calculate_score m.1) m.2 acc u).1
    have hg' : boardGames ((applyMatch resolve acc m).1) u
        = boardGames acc.1 u + (m.2.count u : ℤ) :=
      (foldl_applyMention resolve (calculate_score m.1) m.2 acc u).2
    have hds : msgScoreDelta (m :: t) u
        = (m.2.count u : ℤ) * calculate_score m.1 + msgScoreDelta t u := by
      simp [msgScoreDelta]
    have hdg : msgGamesDelta (m :: t) u
        = (m.2.count u : ℤ) + msgGamesDelta t u := by
      simp [msgGamesDelta]
    exact ⟨by rw [hs, hs', hds]; ring, by rw [hg, hg', hdg]; ring⟩

/-- The aggregate change of one full `process_wordle_message` call depends
only on the message, not on the starting snapshot. -/
lemma process_delta (authorId : ℤ) (content : List Char)
    (resolve : UserId → List Char) (b : Board) (u : UserId) :
    boardScore ((process_wordle_message authorId content resolve b).1) u
        = boardScore b u + processScoreDelta authorId content u ∧
    boardGames ((process_wordle_message authorId content resolve b).1) u
        = boardGames b u + processGamesDelta authorId content u := by
  by_cases ha : authorId = WORDLE_BOT_ID
  · by_cases hc : content.isEmpty = true
    · have h1 : process_wordle_message authorId content resolve b = (b, 0) := by
        simp [process_wordle_message, hc]
      have h2 : processScoreDelta authorId content u = 0 := by
        simp [processScoreDelta, hc]
      have h3 : processGamesDelta authorId content u = 0 := by
        simp [processGamesDelta, hc]
      rw [h1, h2, h3]
      simp
    · have hc' : content.isEmpty = false := by simpa using hc
      by_cases hr : (parseWordleContent (pyStrip (removeStars content))).isEmpty = true
      · have hres : parseWordleContent (pyStrip (removeStars content)) = [] :=
          List.isEmpty_iff.mp hr
        have h1 : process_wordle_message authorId content resolve b = (b, 0) := by
          simp [process_wordle_message, ha, hc', hr]
        have h2 : processScoreDelta authorId content u = 0 := by
          simp [processScoreDelta, ha, hc', hres, msgScoreDelta]
        have h3 : processGamesDelta authorId content u = 0 := by
          simp [processGamesDelta, ha, hc', hres, msgGamesDelta]
        rw [h1, h2, h3]
        simp
      · have h1 : process_wordle_message authorId content resolve b
            = (parseWordleContent (pyStrip (removeStars content))).foldl
                (applyMatch resolve) (b, 0) := by
          simp [process_wordle_message, ha, hc', hr]
        have h2 : processScoreDelta authorId content u
            = msgScoreDelta (parseWordleContent (pyStrip (removeStars content))) u := by
          simp [processScoreDelta, ha, hc']
        have h3 : processGamesDelta authorId content u
            = msgGamesDelta (parseWordleContent (pyStrip (removeStars content))) u := by
          simp [processGamesDelta, ha, hc']
        rw [h1, h2, h3]
        exact foldl_applyMatch resolve _ (b, 0) u
  · have h1 : process_wordle_message authorId content resolve b = (b, 0) := by
      simp [process_wordle_message, ha]
    have h2 : processScoreDelta authorId content u = 0 := by
      simp [processScoreDelta, ha]
    have h3 : processGamesDelta authorId content u = 0 := by
      simp [processGamesDelta, ha]
    rw [h1, h2, h3]
    simp

/-! ## Preservation of the aggregate invariant -/

lemma boardInv_applyMention (resolve : UserId → List Char) (pts : ℤ)
    (acc : Board × ℕ) (u' : UserId) (hinv : boardInv acc.1)
    (h0 : 0 ≤ pts) (h7 : pts ≤ 7) :
    boardInv ((applyMention resolve pts acc u').1) := by
  intro p hp
  have hshow : (applyMention resolve pts acc u').1
      = boardUpdate
          (if boardHas acc.1 u' then acc.1 else acc.1 ++ [(u', ⟨resolve u', 0, 0⟩)])
          u' (fun r => ⟨resolve u', r.total_score + pts, r.games_played + 1⟩) := rfl
  rw [hshow] at hp
  unfold boardUpdate at hp
  rw [List.mem_map] at hp
  obtain ⟨q, hq, hpq⟩ := hp
  have hqinv : 0 ≤ q.2.total_score ∧ q.2.total_score ≤ 7 * q.2.games_played := by
    by_cases hhas : boardHas acc.1 u' = true
    · rw [if_pos hhas] at hq
      exact hinv q hq
    · rw [if_neg hhas] at hq
      rcases List.mem_append.mp hq with hq1 | hq2
      · exact hinv q hq1
      · have hq2' : q = (u', ⟨resolve u', 0, 0⟩) := by simpa using hq2
        rw [hq2']
        norm_num
  rw [← hpq]
  by_cases hqu : (q.1 == u') = true
  · simp only [hqu, if_true]
    obtain ⟨ha, hb⟩ := hqinv
    constructor
    · simpa using by omega
    · show q.2.total_score + pts ≤ 7 * (q.2.games_played + 1)
      omega
  · simp only [hqu, if_false]
    exact hqinv

lemma boardInv_foldl_applyMention (resolve : UserId → List Char) (pts : ℤ)
    (h0 : 0 ≤ pts) (h7 : pts ≤ 7) :
    ∀ (ms : List UserId) (acc : Board × ℕ), boardInv acc.1 →
      boardInv ((ms.foldl (applyMention resolve pts) acc).1) := by
  intro ms
  induction ms with
  | nil => intro acc h; exact h
  | cons m t ih =>
    intro acc h
    rw [List.foldl_cons]
    exact ih _ (boardInv_applyMention resolve pts acc m h h0 h7)

lemma boardInv_foldl_applyMatch (resolve : UserId → List Char) :
    ∀ (results : List (Char × List UserId)) (acc : Board × ℕ), boardInv acc.1 →
      boardInv ((results.foldl (applyMatch resolve) acc).1) := by
  intro results
  induction results with
  | nil => intro acc h; exact h
  | cons m t ih =>
    intro acc h
    rw [List.foldl_cons]
    exact ih _ (boardInv_foldl_applyMention resolve (calculate_score m.1)
      (calculate_score_nonneg m.1) (calculate_score_le_seven m.1) m.2 acc h)

/-- One engine call preserves the aggregate invariant. -/
lemma boardInv_process (authorId : ℤ) (content : List Char)
    (resolve : UserId → List Char) (b : Board) (hinv : boardInv b) :
    boardInv ((process_wordle_message authorId content resolve b).1) := by
  unfold process_wordle_message
  split_ifs with h1 h2
  · exact hinv
  · exact hinv
  · show boardInv
      (if (parseWordleContent (pyStrip (removeStars content))).isEmpty = true then (b, 0)
       else (parseWordleContent (pyStrip (removeStars content))).foldl
         (applyMatch resolve) (b, 0)).1
    split_ifs with h3
    · exact hinv
    · exact boardInv_foldl_applyMatch resolve _ (b, 0) hinv

/-! ## The backfill scan -/

/-- The backfill loop ingests exactly the eligible messages, in order, against
the shared snapshot (provided the initiating command message is not itself an
eligible source-bot message, which holds whenever its author is not the source
bot). -/
lemma backfill_fold (resolve : UserId → List Char) (ctxId : ℤ) :
    ∀ (history : List Msg) (acc : Board × ℕ),
    (∀ m ∈ history, m.id = ctxId → m.authorId ≠ WORDLE_BOT_ID) →
    (history.foldl (backfillStep resolve ctxId) acc).1
      = (history.filter isEligible).foldl
          (fun b m => (process_wordle_message m.authorId m.content resolve b).1) acc.1 := by
  intro history
  induction history with
  | nil => intro acc _; rfl
  | cons m t ih =>
    intro acc h
    have hm := h m (by simp)
    have ht : ∀ m' ∈ t, m'.id = ctxId → m'.authorId ≠ WORDLE_BOT_ID :=
      fun m' hm' => h m' (by simp [hm'])
    rw [List.foldl_cons, List.filter_cons]
    by_cases hid : m.id = ctxId
    · have helig : isEligible m = false := by
        have hne := hm hid
        have : (m.authorId == WORDLE_BOT_ID) = false := by
          rw [beq_eq_false_iff_ne]; exact hne
        simp [isEligible, this]
      rw [if_neg (by simp [helig])]
      have hstep : backfillStep resolve ctxId acc m = acc := by
        simp [backfillStep, hid]
      rw [hstep]
      exact ih acc ht
    · by_cases helig : isEligible m = true
      · have hstep : backfillStep resolve ctxId acc m
            = ((process_wordle_message m.authorId m.content resolve acc.1).1,
               if 0 < (process_wordle_message m.authorId m.content resolve acc.1).2
               then acc.2 + 1 else acc.2) := by
          simp [backfillStep, hid, helig]
        rw [hstep, if_pos helig, List.foldl_cons]
        exact ih _ ht
      · have helig' : isEligible m = false := by simpa using helig
        have hstep : backfillStep resolve ctxId acc m = acc := by
          simp [backfillStep, hid, helig']
        rw [hstep, if_neg (by simp [helig'])]
        exact ih acc ht

/-! ## The rendered leaderboard -/

lemma length_insertByDesc (x : UserId × PlayerRec) :
    ∀ l : Board, (insertByDesc x l).length = l.length + 1 := by
  intro l
  induction l with
  | nil => rfl
  | cons y ys ih =>
    unfold insertByDesc
    split
    · simp
    · simp [ih]

lemma length_sortedBoard (b : Board) : (sortedBoard b).length = b.length := by
  unfold sortedBoard
  induction b with
  | nil => rfl
  | cons x t ih => simp [List.foldr_cons, length_insertByDesc, ih]

/-! ## Claim theorems -/

/-- C1 (code bug): at the failing input — two records with equal
`total_score = 6` where player `"1"` (alice, 1 game) has `average_guesses =
1.0` and player `"2"` (bob, 2 games) has `average_guesses = 4.0` — the sort
places bob, the record with the HIGHER average_guesses, first.  `reverse=True`
reverses the comparison on the whole key tuple, so the secondary key
`7.0 - total_score/games_played` is also sorted descending, contradicting the
claim and the source's own comments ("ascending - lower is better"). -/
theorem wordle_C1_tie_break_code_bug :
    (sortedBoard [(['1'], ⟨("alice").toList, 6, 1⟩),
                  (['2'], ⟨("bob").toList, 6, 2⟩)]).map Prod.fst = [['2'], ['1']] ∧
    (⟨("alice").toList, 6, 1⟩ : PlayerRec).total_score
        = (⟨("bob").toList, 6, 2⟩ : PlayerRec).total_score ∧
    (pyKey (['1'], ⟨("alice").toList, 6, 1⟩)).2
        < (pyKey (['2'], ⟨("bob").toList, 6, 2⟩)).2 := by
  refine ⟨?_, by norm_num, by norm_num [pyKey]⟩
  norm_num [sortedBoard, insertByDesc, keyGE, pyKey]

/-- C2 counterexample: the token `0` lies outside both families named by the
claim (digits 1..6 and the failure marker), yet the code maps it to 7, not 0:
`int("0") = 0` and `max(0, 7 - 0) = 7`. -/
theorem wordle_C2_counterexample :
    calculate_score '0' = 7 ∧ calculate_score '0' ≠ 0 := by
  decide

/-- C2 amended: `calculate_score` is total; the failure marker `X`/`x` maps to
0; every digit `g` — 0..9, not just 1..6 — maps to `max(0, 7 - g)` (so `"1" ↦
6`, `"6" ↦ 1`, but also `"0" ↦ 7` and `"7".."9" ↦ 0`), monotonically
non-increasing in the digit; and every non-digit token other than the failure
marker maps to 0. -/
theorem wordle_C2_amended :
    calculate_score 'X' = 0 ∧ calculate_score 'x' = 0 ∧
    calculate_score '1' = 6 ∧ calculate_score '6' = 1 ∧
    (∀ c : Char, c.isDigit = true →
      calculate_score c = max 0 (7 - ((c.toNat - 48 : ℕ) : ℤ))) ∧
    (∀ c d : Char, c.isDigit = true → d.isDigit = true → c.toNat ≤ d.toNat →
      calculate_score d ≤ calculate_score c) ∧
    (∀ c : Char, c.isDigit = false → (c == 'X' || c == 'x') = false →
      calculate_score c = 0) := by
  refine ⟨by decide, by decide, by decide, by decide, ?_, ?_, ?_⟩
  · exact fun c h => calculate_score_digit h
  · intro c d hc hd hle
    rw [calculate_score_digit hc, calculate_score_digit hd]
    refine max_le_max le_rfl ?_
    omega
  · intro c hc hx
    simp [calculate_score, hx, hc]

/-- C2 amended witness: each implication of the amended theorem instantiated
at a concrete token. -/
theorem wordle_C2_amended_witness :
    calculate_score '0' = max 0 (7 - ((('0').toNat - 48 : ℕ) : ℤ)) ∧
    calculate_score '9' ≤ calculate_score '3' ∧
    calculate_score '/' = 0 :=
  ⟨wordle_C2_amended.2.2.2.2.1 '0' (by decide),
   wordle_C2_amended.2.2.2.2.2.1 '3' '9' (by decide) (by decide) (by decide),
   wordle_C2_amended.2.2.2.2.2.2 '/' (by decide) (by decide)⟩

/-- C3: for every message body the parser returns exactly one parsed result
per occurrence of the score pattern `token/6:` (K segments → K results), and
references cannot leak across segments: every captured segment is free of
score-pattern occurrences, and the body decomposes as a pattern-free prelude
followed, for each match in order, by its token characters, a whitespace run,
its captured segment and a pattern-free gap — so each result's mention list is
drawn only from the text between its own score token and the next one (or the
end of the body). -/
theorem wordle_C3_segment_extraction : ∀ s : List Char,
    (parseWordleContent s).length = countScorePats s ∧
    ((wordleFindall s).all fun p => countScorePats p.2 == 0) = true ∧
    ∃ pre extras,
      extras.length = (wordleFindall s).length ∧
      countScorePats pre = 0 ∧
      (extras.all fun x => x.1.all isWS && (countScorePats x.2 == 0)) = true ∧
      s = pre ++ glueEntries ((wordleFindall s).zip extras) := by
  intro s
  refine ⟨?_, ?_, wordleFindall_decomp s.length s le_rfl⟩
  · rw [parseWordleContent, List.length_map]
    exact wordleFindall_length s.length s le_rfl
  · have h := wordleFindall_entries s.length s le_rfl
    rw [List.all_eq_true] at h ⊢
    intro p hp
    have hp2 := h p hp
    simp only [Bool.and_eq_true] at hp2
    exact hp2.2

/-- C4 counterexample: the claim says the digit 0 (or any digit above 6) never
yields a parsed result, but the regex alternation `(\d|X)` accepts every
digit: the bodies `"0/6:"` and `"7/6:"` each yield one parsed result. -/
theorem wordle_C4_counterexample :
    parseWordleContent ('0' :: '/' :: '6' :: ':' :: []) = [('0', [])] ∧
    parseWordleContent ('7' :: '/' :: '6' :: ':' :: []) = [('7', [])] := by
  decide

/-- C4 amended: the parser emits a parsed result exactly for each occurrence
of `token/6:` whose token is any single digit — 0..9, including 0 and 7..9 —
or `X`/`x` (case-insensitive): every emitted token is such a character, and
there is exactly one result per occurrence. -/
theorem wordle_C4_amended : ∀ s : List Char,
    ((wordleFindall s).all fun p => isScoreTokenChar p.1) = true ∧
    (parseWordleContent s).length = countScorePats s := by
  intro s
  constructor
  · have h := wordleFindall_entries s.length s le_rfl
    rw [List.all_eq_true] at h ⊢
    intro p hp
    have hp2 := h p hp
    simp only [Bool.and_eq_true] at hp2
    exact hp2.1
  · rw [parseWordleContent, List.length_map]
    exact wordleFindall_length s.length s le_rfl

/-- C5: ingesting the same message twice in sequence doubles every affected
record's increments: for every author, content, resolver, starting snapshot
and user, the two-step change of `total_score` and of `games_played` is
exactly twice the corresponding one-step change (the engine performs no
message-level deduplication). -/
theorem wordle_C5_double_ingestion :
    ∀ (authorId : ℤ) (content : List Char) (resolve : UserId → List Char)
      (b : Board) (u : UserId),
    boardScore ((process_wordle_message authorId content resolve
          ((process_wordle_message authorId content resolve b).1)).1) u
        - boardScore b u
      = 2 * (boardScore ((process_wordle_message authorId content resolve b).1) u
          - boardScore b u) ∧
    boardGames ((process_wordle_message authorId content resolve
          ((process_wordle_message authorId content resolve b).1)).1) u
        - boardGames b u
      = 2 * (boardGames ((process_wordle_message authorId content resolve b).1) u
          - boardGames b u) := by
  intro a c r b u
  obtain ⟨h1s, h1g⟩ := process_delta a c r b u
  obtain ⟨h2s, h2g⟩ := process_delta a c r ((process_wordle_message a c r b).1) u
  constructor
  · rw [h2s, h1s]
    ring
  · rw [h2g, h1g]
    ring

/-- C6 counterexample: a snapshot holding one record with `games_played = 0`
renders one entry (with the `N/A` average), not zero: the rendering loop
iterates over every record of the sorted snapshot and performs no
`games_played > 0` filter. -/
theorem wordle_C6_counterexample :
    ((display_wordle_leaderboard [(['9'], ⟨("zoe").toList, 0, 0⟩)]).getD []).length = 1 ∧
    ([(['9'], (⟨("zoe").toList, 0, 0⟩ : PlayerRec))].filter
        (fun p => decide (0 < p.2.games_played))).length = 0 := by
  decide

/-- C6 amended: for every snapshot the rendering produces exactly one entry
per record of the snapshot — records with `games_played = 0` are included,
rendered with an `N/A` average — so the output length equals the total number
of records, not the number of records with `games_played > 0`. -/
theorem wordle_C6_amended : ∀ b : Board,
    ((display_wordle_leaderboard b).getD []).length = b.length := by
  intro b
  by_cases hb : b.isEmpty = true
  · have hb' : b = [] := List.isEmpty_iff.mp hb
    subst hb'
    rfl
  · rw [display_wordle_leaderboard, if_neg hb]
    simp [List.enum_length, length_sortedBoard]

/-- C7: the engine's defensive guards: a message whose author identity differs
from the configured source-bot identity, and a message whose normalized body
contains no score-token pattern, each leave the snapshot unchanged and log
zero results. -/
theorem wordle_C7_guards :
    ∀ (authorId : ℤ) (content : List Char) (resolve : UserId → List Char) (b : Board),
    (authorId ≠ WORDLE_BOT_ID →
      process_wordle_message authorId content resolve b = (b, 0)) ∧
    (countScorePats (pyStrip (removeStars content)) = 0 →
      process_wordle_message authorId content resolve b = (b, 0)) := by
  intro a c r b
  constructor
  · intro ha
    simp [process_wordle_message, ha]
  · intro hcount
    by_cases ha : a = WORDLE_BOT_ID
    · by_cases hc : c.isEmpty = true
      · simp [process_wordle_message, hc]
      · have hc' : c.isEmpty = false := by simpa using hc
        have hres : parseWordleContent (pyStrip (removeStars c)) = [] := by
          apply List.eq_nil_of_length_eq_zero
          rw [parseWordleContent, List.length_map,
            wordleFindall_length (pyStrip (removeStars c)).length _ le_rfl, hcount]
        simp [process_wordle_message, ha, hc', hres]
    · simp [process_wordle_message, ha]

/-- C7 witness: both guards instantiated at concrete messages. -/
theorem wordle_C7_guards_witness :
    process_wordle_message 0 ([] : List Char) (fun u => u) [] = ([], 0) ∧
    process_wordle_message WORDLE_BOT_ID (("hello").toList) (fun u => u) [] = ([], 0) :=
  ⟨(wordle_C7_guards 0 [] (fun u => u) []).1 (by decide),
   (wordle_C7_guards WORDLE_BOT_ID (("hello").toList) (fun u => u) []).2 (by decide)⟩

/-- C8: for every history window whose initiating command message is not
authored by the source bot, the backfill ingests exactly the eligible messages
— those authored by the source identity whose normalized (stripped,
lowercased) text contains the keyword phrase — in order against one shared
snapshot; it performs at most one persistence write, at the end, and exactly
one iff at least one message was logged. -/
theorem wordle_C8_backfill :
    ∀ (resolve : UserId → List Char) (ctxId : ℤ) (history : List Msg) (b0 : Board),
    (∀ m ∈ history, m.id = ctxId → m.authorId ≠ WORDLE_BOT_ID) →
    (backfill_wordle_leaderboard resolve ctxId history b0).1
        = (history.filter isEligible).foldl
            (fun b m => (process_wordle_message m.authorId m.content resolve b).1) b0 ∧
    (backfill_wordle_leaderboard resolve ctxId history b0).2.2 ≤ 1 ∧
    ((backfill_wordle_leaderboard resolve ctxId history b0).2.2 = 1
      ↔ 0 < (backfill_wordle_leaderboard resolve ctxId history b0).2.1) := by
  intro resolve ctxId history b0 h
  refine ⟨backfill_fold resolve ctxId history (b0, 0) h, ?_, ?_⟩
  · show (if 0 < (history.foldl (backfillStep resolve ctxId) (b0, 0)).2
        then 1 else 0) ≤ 1
    split_ifs <;> norm_num
  · show ((if 0 < (history.foldl (backfillStep resolve ctxId) (b0, 0)).2
        then 1 else 0) = 1)
      ↔ 0 < (history.foldl (backfillStep resolve ctxId) (b0, 0)).2
    split_ifs with hpos
    · simp [hpos]
    · simp [hpos]

/-- C8 witness: the backfill contract instantiated at a concrete two-message
window (one eligible source-bot result, one wrong-author message). -/
theorem wordle_C8_backfill_witness :
    (backfill_wordle_leaderboard (fun u => u) 99
        [⟨1, WORDLE_BOT_ID, ("yesterday's results 4/6: <@!12>").toList⟩,
         ⟨2, 7, ("yesterday's results 1/6: <@!12>").toList⟩] []).1
      = ([⟨1, WORDLE_BOT_ID, ("yesterday's results 4/6: <@!12>").toList⟩,
          (⟨2, 7, ("yesterday's results 1/6: <@!12>").toList⟩ : Msg)].filter
            isEligible).foldl
            (fun b m => (process_wordle_message m.authorId m.content (fun u => u) b).1) [] ∧
    (backfill_wordle_leaderboard (fun u => u) 99
        [⟨1, WORDLE_BOT_ID, ("yesterday's results 4/6: <@!12>").toList⟩,
         ⟨2, 7, ("yesterday's results 1/6: <@!12>").toList⟩] []).2.2 ≤ 1 ∧
    ((backfill_wordle_leaderboard (fun u => u) 99
        [⟨1, WORDLE_BOT_ID, ("yesterday's results 4/6: <@!12>").toList⟩,
         ⟨2, 7, ("yesterday's results 1/6: <@!12>").toList⟩] []).2.2 = 1
      ↔ 0 < (backfill_wordle_leaderboard (fun u => u) 99
        [⟨1, WORDLE_BOT_ID, ("yesterday's results 4/6: <@!12>").toList⟩,
         ⟨2, 7, ("yesterday's results 1/6: <@!12>").toList⟩] []).2.1) :=
  wordle_C8_backfill (fun u => u) 99
    [⟨1, WORDLE_BOT_ID, ("yesterday's results 4/6: <@!12>").toList⟩,
     ⟨2, 7, ("yesterday's results 1/6: <@!12>").toList⟩] [] (by decide)

/-- C9: `load_leaderboard` returns the empty mapping both when the persisted
file is absent and when its contents fail to decode; being a total function
into snapshots, it propagates no failure to its caller in those cases. -/
theorem wordle_C9_load_swallows :
    load_leaderboard .absent = [] ∧ load_leaderboard .corrupt = [] :=
  ⟨rfl, rfl⟩

/-- C10: every ingestion call preserves the invariant
`0 ≤ total_score ≤ 7 * games_played` for every record (each processed
occurrence adds one game and between 0 and 7 points, the score of any single
token being at most `max(0, 7 - 0) = 7`), and consequently every snapshot
reachable from the empty snapshot by a sequence of ingestions satisfies it. -/
theorem wordle_C10_invariant :
    (∀ (authorId : ℤ) (content : List Char) (resolve : UserId → List Char) (b : Board),
      boardInv b → boardInv ((process_wordle_message authorId content resolve b).1)) ∧
    (∀ (msgs : List (ℤ × List Char)) (resolve : UserId → List Char),
      boardInv (msgs.foldl
        (fun b m => (process_wordle_message m.1 m.2 resolve b).1) [])) := by
  constructor
  · exact fun a c r b h => boardInv_process a c r b h
  · intro msgs resolve
    have hgen : ∀ (ms : List (ℤ × List Char)) (b : Board), boardInv b →
        boardInv (ms.foldl (fun b m => (process_wordle_message m.1 m.2 resolve b).1) b) := by
      intro ms
      induction ms with
      | nil => intro b h; exact h
      | cons m t ih =>
        intro b h
        rw [List.foldl_cons]
        exact ih _ (boardInv_process m.1 m.2 resolve b h)
    exact hgen msgs [] (fun p hp => absurd hp (List.not_mem_nil p))

/-- C10 witness: the invariant hypothesis discharged at a concrete snapshot
and message. -/
theorem wordle_C10_invariant_witness :
    boardInv ((process_wordle_message WORDLE_BOT_ID (("3/6: <@!5>")).toList
        (fun u => u) [(['5'], ⟨[], 4, 2⟩)]).1) :=
  wordle_C10_invariant.1 WORDLE_BOT_ID (("3/6: <@!5>")).toList (fun u => u)
    [(['5'], ⟨[], 4, 2⟩)] (by unfold boardInv; decide)

end EtchoBot
